import Mathlib

/-!
Verification of the ERMA foxglove recording/replay bridge backend.

The JavaScript/TypeScript source (`web/wsBridge.mjs` — the bridge section of
`FoxgloveWebSocketDataSourceFactory.ts` —, `web/server.mjs`, and the
front-end `slugifyTarget` helper) is shallowly embedded:

* JS strings that undergo character-level processing are lists of UTF-16
  code units (`List Nat`); strings used only as opaque keys are Lean
  `String`s;
* JS `Map`s are association lists whose keys are unique (`mget`/`mset`/`mdel`
  mirror `get`/`set`/`delete`);
* BigInt nanosecond timestamps and millisecond clock values are `Int`;
* effectful calls (`subscribe`, `unsubscribe`, manager start/stop, sends,
  unlinks) are returned explicitly as effect lists or flags.
-/

namespace Bridge

/-- `Map.get` on an association list (first binding wins; JS `Map` keys are
unique so at most one binding exists per key). -/
def mget [DecidableEq κ] (k : κ) : List (κ × α) → Option α
  | [] => none
  | (k', v) :: t => if k' = k then some v else mget k t

/-- `Map.set`: replace the binding in place if the key exists, else append. -/
def mset [DecidableEq κ] (k : κ) (v : α) : List (κ × α) → List (κ × α)
  | [] => [(k, v)]
  | (k', v') :: t => if k' = k then (k, v) :: t else (k', v') :: mset k v t

/-- `Map.delete`: remove the key's binding. -/
def mdel [DecidableEq κ] (k : κ) : List (κ × α) → List (κ × α)
  | [] => []
  | (k', v) :: t => if k' = k then mdel k t else (k', v) :: mdel k t

/-! ### Ring buffer (`TargetManager.#storeRing`) -/

/-- One ring entry `{ t: BigInt, p: Uint8Array }`. -/
structure RingEntry where
  t : Int
  p : List Nat
deriving DecidableEq

/-- The eviction loop of `#storeRing`:
`while (arr.length > 0 && arr[0].t < cutoff) arr.shift();`. -/
def evictHead (cutoff : Int) : List RingEntry → List RingEntry
  | [] => []
  | e :: rest => if e.t < cutoff then evictHead cutoff rest else e :: rest

/-- `TargetManager.#storeRing` acting on one topic's array: push `{t, p}`,
then evict stale entries from the head.  `cutoff` is
`BigInt(Date.now() - this.maxRingMs) * 1_000_000n`, sampled at the end of
the push. -/
def storeRing (arr : List RingEntry) (t : Int) (p : List Nat) (cutoff : Int) :
    List RingEntry :=
  evictHead cutoff (arr ++ [⟨t, p⟩])

/-! ### Lookback parsing (`parseLookback`) -/

/-- A JS string as a list of UTF-16 code units. -/
abbrev JStr := List Nat

/-- `[0-9]` of the lookback regex. -/
def isDigitCode (c : Nat) : Bool := decide (48 ≤ c ∧ c ≤ 57)

/-- Code units removed by `String.prototype.trim`
(ECMAScript WhiteSpace ∪ LineTerminator). -/
def isJsSpace (c : Nat) : Bool :=
  decide (c = 9 ∨ c = 10 ∨ c = 11 ∨ c = 12 ∨ c = 13 ∨ c = 32 ∨ c = 160 ∨
    c = 5760 ∨ (8192 ≤ c ∧ c ≤ 8202) ∨ c = 8232 ∨ c = 8233 ∨ c = 8239 ∨
    c = 8287 ∨ c = 12288 ∨ c = 65279)

/-- `text.trim()`. -/
def jsTrim (l : JStr) : JStr :=
  ((l.dropWhile isJsSpace).reverse.dropWhile isJsSpace).reverse

/-- The unit characters `s m h d w` of the lookback regex. -/
def lookbackUnits : List Nat := [115, 109, 104, 100, 119]

/-- `unit === 's' ? 1000 : … : 604_800_000` from `parseLookback`. -/
def multOf (u : Nat) : Nat :=
  if u = 115 then 1000
  else if u = 109 then 60000
  else if u = 104 then 3600000
  else if u = 100 then 86400000
  else 604800000

/-- `parseInt(m[1], 10)` on the digit run captured by the regex. -/
def digitsVal (ds : List Nat) : Nat := ds.foldl (fun a c => 10 * a + (c - 48)) 0

/-- Matching `/^([0-9]+)([smhdw])$/`: a non-empty digit run followed by
exactly one unit character, consuming the whole string.  (`[0-9]+` is
greedy and the unit characters are not digits, so taking the maximal digit
prefix is exact.) -/
def matchLookback (l : JStr) : Option (List Nat × Nat) :=
  let ds := l.takeWhile isDigitCode
  match l.dropWhile isDigitCode with
  | [u] => if ds ≠ [] ∧ u ∈ lookbackUnits then some (ds, u) else none
  | _ => none

/-- `parseLookback(text, defaultMs)` from `wsBridge.mjs`: empty (falsy) input
or no regex match yields `defaultMs`. -/
def parseLookback (text : JStr) (defaultMs : Nat) : Nat :=
  if text = [] then defaultMs
  else
    match matchLookback (jsTrim text) with
    | some (ds, u) => digitsVal ds * multOf u
    | none => defaultMs

/-- Code units of the string `'15m'`. -/
def code15m : JStr := [49, 53, 109]

/-- `this.maxRingMs = parseLookback(process.env.HISTORY_LOOKBACK || '15m',
15 * 60_000)` — `||` takes the fallback when the variable is unset or empty. -/
def maxRingMsOf (env : Option JStr) : Nat :=
  parseLookback
    (match env with
      | none => code15m
      | some s => if s = [] then code15m else s)
    (15 * 60000)

/-- `attachClientServer`: `lookbackMs = parseLookback(lookback, this.maxRingMs)`
and `earliest = BigInt(Date.now() - lookbackMs) * 1_000_000n`. -/
def sessionEarliestNs (nowMs : Int) (lookback : JStr) (maxRingMs : Nat) : Int :=
  (nowMs - (parseLookback lookback maxRingMs : Int)) * 1000000

/-! ### Slugs (backend `slugify` and front-end `slugifyTarget`) -/

/-- ASCII lowercasing of one code unit, as `toLowerCase` acts on ASCII. -/
def toLowerCode (c : Nat) : Nat := if 65 ≤ c ∧ c ≤ 90 then c + 32 else c

/-- Membership in the class `[a-zA-Z0-9]` — the complement of the backend
`slugify` regex class `[^a-zA-Z0-9]`. -/
def isAlnumB (c : Nat) : Bool :=
  decide ((97 ≤ c ∧ c ≤ 122) ∨ (65 ≤ c ∧ c ≤ 90) ∨ (48 ≤ c ∧ c ≤ 57))

/-- Membership in the class `[a-z0-9]` under the `i` flag — the complement of
the front-end `slugifyTarget` regex class `[^a-z0-9]/gi`: case-insensitive
membership, i.e. the case-folded unit lies in `a-z` or the unit is a digit. -/
def isAlnumF (c : Nat) : Bool :=
  decide ((97 ≤ toLowerCode c ∧ toLowerCode c ≤ 122) ∨ (48 ≤ c ∧ c ≤ 57))

/-- `.replace(/[^…]+/g, '-')`: each maximal run of non-kept code units becomes
one `'-'` (45).  `inRun` tracks whether the previous unit was part of such a
run (whose dash has already been emitted). -/
def collapseRuns (keep : Nat → Bool) : Bool → JStr → JStr
  | _, [] => []
  | inRun, c :: rest =>
    if keep c then c :: collapseRuns keep false rest
    else if inRun then collapseRuns keep true rest
    else 45 :: collapseRuns keep true rest

/-- `.replace(/^-+|-+$/g, '')`: strip the leading and the trailing run of
`'-'`. -/
def trimDashes (l : JStr) : JStr :=
  ((l.dropWhile (fun c => c == 45)).reverse.dropWhile (fun c => c == 45)).reverse

/-- Backend `slugify` (`wsBridge.mjs`): collapse non-alphanumeric runs to
`'-'`, strip edge dashes, lowercase. -/
def slugify (l : JStr) : JStr :=
  (trimDashes (collapseRuns isAlnumB false l)).map toLowerCode

/-- Front-end `slugifyTarget` (`useWorkspaceActions.ts`): same pipeline with
the case-insensitive class; `undefined` on falsy input or an empty slug. -/
def slugifyTarget (l : JStr) : Option JStr :=
  if l = [] then none
  else
    let slug := (trimDashes (collapseRuns isAlnumF false l)).map toLowerCode
    if slug.length > 0 then some slug else none

/-! ### Retention sweep (`TargetManager.#cleanupRetention`) -/

/-- A directory entry as seen by the sweep: its name and `stat.mtimeMs`. -/
structure FsFile where
  name : String
  mtimeMs : Int
deriving DecidableEq

/-- `f.endsWith('.mcap')`. -/
def endsWithMcap (s : String) : Bool := ".mcap".data.isSuffixOf s.data

/-- Whether one directory entry survives `#cleanupRetention`: non-`.mcap`
names are skipped; `.mcap` files older than the cutoff are unlinked, with
unlink errors swallowed (`unlinkOk f = false` models a failed unlink, which
leaves the file in place). -/
def retentionKeeps (cutoff : Int) (unlinkOk : FsFile → Bool) (f : FsFile) : Bool :=
  if ¬ endsWithMcap f.name then true
  else if f.mtimeMs < cutoff then ¬ unlinkOk f
  else true

/-- `TargetManager.#cleanupRetention` over a directory listing:
`cutoff = Date.now() - this.retentionDays * 86400_000`; returns the files
remaining after the sweep. -/
def cleanupRetention (files : List FsFile) (nowMs : Int) (retentionDays : Int)
    (unlinkOk : FsFile → Bool) : List FsFile :=
  files.filter (retentionKeeps (nowMs - retentionDays * 86400000) unlinkOk)

/-- `parseInt(process.env.RETENTION_DAYS || '7', 10)`: `||` substitutes `'7'`
for an unset/empty variable; `parseInt` trims whitespace and reads the
leading digit run (`none` models `NaN`; no sign handling is needed for the
claims under check). -/
def retentionDaysOf (env : Option JStr) : Option Nat :=
  let s := match env with
    | none => [55]
    | some t => if t = [] then [55] else t
  let ds := (jsTrim s).takeWhile isDigitCode
  if ds = [] then none else some (digitsVal ds)

/-! ### WebSocket upgrade endpoint (`server.on('upgrade')` in `server.mjs`) -/

/-- Outcome of one upgrade request. -/
structure UpgradeOutcome where
  socketDestroyed : Bool
  closedBadProtocol : Bool
  attachedTo : Option String
  unhandledRejection : Bool
deriving DecidableEq

/-- `TargetRegistry.getOrCreate`: the running manager, or a thrown
`Unknown target slug: {slug}` error. -/
def getOrCreate (managers : List String) (slug : String) : Except String Unit :=
  if managers.contains slug then Except.ok ()
  else Except.error ("Unknown target slug: " ++ slug)

/-- `'/ws/'.isPrefixOf pathname` (`url.pathname.startsWith('/ws/')`). -/
def pathStartsWithWs (pathname : String) : Bool := "/ws/".data.isPrefixOf pathname.data

/-- `pathname.replace('/ws/', '')` under the guard that the path starts with
`/ws/`: `String.replace` with a string pattern replaces only the first
occurrence, which here is the leading one, so the prefix is dropped. -/
def dropWsPrefix (pathname : String) : String := ⟨pathname.data.drop 4⟩

/-- `.trim()` on a Lean `String`, via the code-unit trim. -/
def strTrim (s : String) : String :=
  ⟨((s.data.dropWhile (fun c => isJsSpace c.toNat)).reverse.dropWhile
      (fun c => isJsSpace c.toNat)).reverse⟩

/-- `server.on('upgrade', …)`: `managers` is the set of running manager slugs
and `protocolOk` the outcome of `fgServer.handleProtocols`.  The `try/catch`
wrapping the handler guards only its synchronous part: the callback passed to
`wss.handleUpgrade` is an `async` function, so an exception thrown inside it —
in particular the `Unknown target slug` error of `await
registry.getOrCreate(slug)` — rejects a promise nobody awaits and never
reaches the outer `catch` (which would have destroyed the socket).  The
WebSocket handshake has already completed by then. -/
def upgradeHandler (managers : List String) (pathname : String) (protocolOk : Bool) :
    UpgradeOutcome :=
  if ¬ pathStartsWithWs pathname then
    { socketDestroyed := true, closedBadProtocol := false, attachedTo := none,
      unhandledRejection := false }
  else
    let slug := strTrim (dropWsPrefix pathname)
    if slug = "" then
      { socketDestroyed := true, closedBadProtocol := false, attachedTo := none,
        unhandledRejection := false }
    else if ¬ protocolOk then
      { socketDestroyed := false, closedBadProtocol := true, attachedTo := none,
        unhandledRejection := false }
    else
      match getOrCreate managers slug with
      | Except.ok _ =>
        { socketDestroyed := false, closedBadProtocol := false, attachedTo := some slug,
          unhandledRejection := false }
      | Except.error _ =>
        { socketDestroyed := false, closedBadProtocol := false, attachedTo := none,
          unhandledRejection := true }

/-! ### Disk history and session replay
(`TargetManager.#loadPersistentHistory`, `attachClientServer`) -/

/-- A recorded message as yielded by the segment reader, with its channel's
topic resolved (`reader.channelsById.get(msg.channelId).topic`). -/
structure DMsg where
  topic : String
  t : Int
  p : List Nat
deriving DecidableEq

/-- A segment file of the directory listing: the hour start parsed from its
`YYYYMMDD_HH.mcap` name (`Date.UTC(y, m-1, d, h)`), whether it is the
currently open segment, and the messages its indexed reader yields.
(Files whose name does not match the segment regex never enter `candidates`;
truncated/corrupt files yield no messages — both are absorbed into this
abstraction.) -/
structure DFile where
  startMs : Int
  isCurrent : Bool
  msgs : List DMsg
deriving DecidableEq

/-- Stable insertion before the first strictly greater element (equal elements
keep their original relative order, as `Array.prototype.sort` is stable). -/
def insertLe (le : α → α → Bool) (a : α) : List α → List α
  | [] => [a]
  | b :: t => if le b a then b :: insertLe le a t else a :: b :: t

/-- Stable sort by the comparator `le` (total preorder). -/
def sortStable (le : α → α → Bool) (l : List α) : List α :=
  l.foldl (fun acc a => insertLe le a acc) []

/-- `candidates.sort((a, b) => a.startMs - b.startMs)`. -/
def sortByStart (files : List DFile) : List DFile :=
  sortStable (fun a b => decide (a.startMs ≤ b.startMs)) files

/-- `arr.sort((a, b) => (a.t < b.t ? -1 : a.t > b.t ? 1 : 0))`. -/
def sortByTime (l : List DMsg) : List DMsg :=
  sortStable (fun a b => decide (a.t ≤ b.t)) l

/-- The per-message acceptance test of the history loop: the topic must be in
the snapshot set, the log time must lie below the topic's ring head (when the
ring holds that topic), and at or after the window start. -/
def acceptDisk (earliestNs : Int) (topics : List String)
    (ringE : List (String × Int)) (m : DMsg) : Bool :=
  topics.contains m.topic &&
    (match mget m.topic ringE with
      | some c => decide (m.t < c)
      | none => true) &&
    decide (earliestNs ≤ m.t)

/-- `history.get(topic)` / `history.set(topic, arr)` / `arr.push(msg)`. -/
def histInsert (h : List (String × List DMsg)) (m : DMsg) : List (String × List DMsg) :=
  match mget m.topic h with
  | some arr => mset m.topic (arr ++ [m]) h
  | none => mset m.topic [m] h

/-- `ringEarliestByTopic` built at the top of `attachClientServer`: the head
timestamp of each non-empty per-topic ring array. -/
def ringEarliestByTopic (ring : List (String × List RingEntry)) : List (String × Int) :=
  ring.filterMap (fun tp =>
    match tp.2 with
    | [] => none
    | e :: _ => some (tp.1, e.t))

/-- The per-file body of the history loop: skip the currently open segment,
otherwise open the file (counted) and accumulate its accepted messages. -/
def historyStep (earliestNs : Int) (topics : List String) (ringE : List (String × Int))
    (acc : List (String × List DMsg) × Nat) (f : DFile) : List (String × List DMsg) × Nat :=
  if f.isCurrent then acc
  else ((f.msgs.filter (acceptDisk earliestNs topics ringE)).foldl histInsert acc.1,
        acc.2 + 1)

/-- `TargetManager.#loadPersistentHistory`.  `files` abstracts the directory
listing as described on `DFile`; the returned `Nat` counts segment files
opened.  An empty snapshot topic set short-circuits to an empty map before
any file is touched. -/
def loadPersistentHistory (earliestNs : Int) (topics : List String)
    (ringE : List (String × Int)) (files : List DFile) :
    List (String × List DMsg) × Nat :=
  if topics = [] then ([], 0)
  else
    let earliestMs := Int.tdiv earliestNs 1000000
    let cands := sortByStart (files.filter (fun f => decide (earliestMs ≤ f.startMs + 3600000)))
    let r := cands.foldl (historyStep earliestNs topics ringE) ([], 0)
    (r.1.map (fun tp => (tp.1, sortByTime tp.2)), r.2)

/-- The disk part of the `subscribe` handler: the topic's backlog filtered to
`t >= earliest`, in backlog order. -/
def diskSent (hist : List (String × List DMsg)) (earliestNs : Int) (topic : String) :
    List DMsg :=
  match mget topic hist with
  | some l => l.filter (fun m => decide (earliestNs ≤ m.t))
  | none => []

/-- The ring part of the `subscribe` handler: the topic's ring array filtered
to `t >= earliest`, in insertion order. -/
def ringSent (ring : List (String × List RingEntry)) (earliestNs : Int) (topic : String) :
    List RingEntry :=
  match mget topic ring with
  | some arr => arr.filter (fun e => decide (earliestNs ≤ e.t))
  | none => []

/-- The snapshot taken at the top of `attachClientServer`: `addChannel`
assigns server channel ids `0, 1, 2, …` in iteration order over the channel
table; `serverChannelToTopic` maps them back to topics. -/
def serverChannelToTopic (channels : List (Nat × String)) : List (Nat × String) :=
  channels.enum.map (fun p => (p.1, p.2.2))

/-- The session's `upstreamId -> serverChanId` map built by the same loop. -/
def attachMap (channels : List (Nat × String)) : List (Nat × Nat) :=
  channels.enum.map (fun p => (p.2.1, p.1))

/-- `topicsSet = new Set(serverChannelToTopic.values())` (as a list; only
membership is consumed). -/
def attachTopics (channels : List (Nat × String)) : List String :=
  (serverChannelToTopic channels).map (fun p => p.2)

/-- The complete `subscribe` handler of `attachClientServer`: resolve the
server channel id to its topic, then send the disk backlog followed by the
ring snapshot, both filtered to the window.  Each sent message is a
`(t, payload)` pair, in send order. -/
def onSubscribe (sct : List (Nat × String)) (hist : List (String × List DMsg))
    (ring : List (String × List RingEntry)) (earliestNs : Int) (serverChanId : Nat) :
    List (Int × List Nat) :=
  match mget serverChanId sct with
  | none => []
  | some topic =>
    (diskSent hist earliestNs topic).map (fun m => (m.t, m.p)) ++
      (ringSent ring earliestNs topic).map (fun e => (e.t, e.p))

/-! ### Upstream connector and manager state
(`TargetManager` subscription bookkeeping, `TargetRegistry`) -/

/-- Observable side effects of manager/registry operations. -/
inductive Eff where
  | subscribe (channelId : Nat)
  | unsubscribe (subId : Nat)
  | startManager (slug : String)
  | stopManager (slug : String)
deriving DecidableEq

/-- Subscription-relevant state of a `TargetManager`: `channels` maps
upstream channel id to topic (the remaining descriptor fields do not
influence the properties under check), `subs` is `subscriptionByChannel`,
`subInfo` is `subscriptionInfo` (subId → (channelId, topic)), `whitelist` is
`topicsWhitelist`, `clientUp` is the truthiness of `this.client`, `nextSub`
is the upstream client's next subscription id. -/
structure MState where
  channels : List (Nat × String)
  subs : List (Nat × Nat)
  subInfo : List (Nat × Nat × String)
  whitelist : Option (List String)
  clientUp : Bool
  nextSub : Nat
deriving DecidableEq

/-- `Array.isArray(topics) && topics.length > 0 ? new Set(topics) : undefined`. -/
def normalizeTopics (topics : Option (List String)) : Option (List String) :=
  match topics with
  | some l => if l = [] then none else some l
  | none => none

/-- Negation of `this.topicsWhitelist && !this.topicsWhitelist.has(topic)`:
`true` when the topic passes the filter. -/
def whitelistAllows (wl : Option (List String)) (topic : String) : Bool :=
  match wl with
  | none => true
  | some l => l.contains topic

/-- `TargetManager.#ensureSubscribed`. -/
def ensureSubscribed (s : MState) (channelId : Nat) (topic : String) : MState × List Eff :=
  if ¬ s.clientUp ∨ (mget channelId s.subs).isSome then (s, [])
  else
    ({ s with
        subs := mset channelId s.nextSub s.subs,
        subInfo := mset s.nextSub (channelId, topic) s.subInfo,
        nextSub := s.nextSub + 1 },
      [Eff.subscribe channelId])

/-- `TargetManager.#ensureUnsubscribed`. -/
def ensureUnsubscribed (s : MState) (channelId : Nat) : MState × List Eff :=
  match mget channelId s.subs with
  | none => ({ s with subs := mdel channelId s.subs }, [])
  | some subId =>
    if ¬ s.clientUp then
      ({ s with subs := mdel channelId s.subs, subInfo := mdel subId s.subInfo }, [])
    else
      ({ s with subs := mdel channelId s.subs, subInfo := mdel subId s.subInfo },
        [Eff.unsubscribe subId])

/-- The `advertise` event handler of `#connectUpstream`: channels failing the
whitelist are skipped entirely; the rest are recorded and subscribed. -/
def advertise (s : MState) : List (Nat × String) → MState × List Eff
  | [] => (s, [])
  | ch :: rest =>
    if ¬ whitelistAllows s.whitelist ch.2 then advertise s rest
    else
      let p := ensureSubscribed { s with channels := mset ch.1 ch.2 s.channels } ch.1 ch.2
      let q := advertise p.1 rest
      (q.1, p.2 ++ q.2)

/-- The `unadvertise` event handler. -/
def unadvertise (s : MState) : List Nat → MState × List Eff
  | [] => (s, [])
  | id :: rest =>
    let p := ensureUnsubscribed { s with channels := mdel id s.channels } id
    let q := unadvertise p.1 rest
    (q.1, p.2 ++ q.2)

/-- The reconciliation loop of `setTopicsWhitelist` over the channel table
(`#ensureSubscribed`/`#ensureUnsubscribed` never modify `channels`, so
iterating a snapshot is equivalent to the live `Map` iteration). -/
def reconcileChannels (s : MState) : List (Nat × String) → MState × List Eff
  | [] => (s, [])
  | ch :: rest =>
    let p := if whitelistAllows s.whitelist ch.2 then ensureSubscribed s ch.1 ch.2
             else ensureUnsubscribed s ch.1
    let q := reconcileChannels p.1 rest
    (q.1, p.2 ++ q.2)

/-- `TargetManager.setTopicsWhitelist`: store the normalized whitelist, then
(with a connected client) reconcile every known channel against it. -/
def setTopicsWhitelist (s0 : MState) (topics : Option (List String)) : MState × List Eff :=
  let s := { s0 with whitelist := normalizeTopics topics }
  if s.clientUp then reconcileChannels s s.channels else (s, [])

/-- A fresh manager as built by `new TargetManager({...})` + `start()`
(`#connectUpstream` assigns `this.client` synchronously). -/
def newManager (topics : Option (List String)) : MState :=
  { channels := [], subs := [], subInfo := [], whitelist := normalizeTopics topics,
    clientUp := true, nextSub := 0 }

/-! ### One upstream message: ring writes (`message` handlers) -/

/-- The upstream `message` event as specified for the consumed subprotocol:
`{subscriptionId, channelId, timestamp, data}`. -/
structure UpMsg where
  subscriptionId : Nat
  channelId : Nat
  timestamp : Int
  data : List Nat

/-- Whether the connector's recording path (the `message` handler installed in
`#connectUpstream`) reaches `#storeRing` for this message: resolve
`subscriptionId → (channelId, _) → channel`, then pass the whitelist. -/
def managerStoresRing (s : MState) (msg : UpMsg) : Bool :=
  match mget msg.subscriptionId s.subInfo with
  | none => false
  | some info =>
    match mget info.1 s.channels with
    | none => false
    | some topic => whitelistAllows s.whitelist topic

/-- Whether one attached session's live `forward` listener reaches
`#storeRing`: `map.get(msg.channelId)` over the session's upstream→server
map. -/
def sessionStoresRing (sessionMap : List (Nat × Nat)) (msg : UpMsg) : Bool :=
  (mget msg.channelId sessionMap).isSome

/-- Number of `#storeRing` calls triggered by one upstream `message` event:
the connector's handler plus every attached session's forwarder run on the
same event. -/
def ringPushCount (s : MState) (sessions : List (List (Nat × Nat))) (msg : UpMsg) : Nat :=
  (if managerStoresRing s msg then 1 else 0) +
    (sessions.map (fun sm => if sessionStoresRing sm msg then 1 else 0)).sum

/-! ### Target registry (`TargetRegistry.syncFromIndex`) -/

/-- One entry of the layouts index as consumed by `syncFromIndex`
(`entry.target` falsy ⇔ empty string; `entry.topics` absent or not an array
⇔ `none`). -/
structure IndexEntry where
  target : String
  retention : Bool
  topics : Option (List String)

/-- `this.managers` (slug → manager). -/
abbrev Registry := List (String × MState)

/-- `keep` class of the backend slugify regex over Lean `Char`s (used where
slugs serve as registry keys). -/
def keepAlnumChar (c : Char) : Bool :=
  decide (('a' ≤ c ∧ c ≤ 'z') ∨ ('A' ≤ c ∧ c ≤ 'Z') ∨ ('0' ≤ c ∧ c ≤ '9'))

/-- `collapseRuns` over `Char`s. -/
def collapseChars : Bool → List Char → List Char
  | _, [] => []
  | inRun, c :: rest =>
    if keepAlnumChar c then c :: collapseChars false rest
    else if inRun then collapseChars true rest
    else '-' :: collapseChars true rest

/-- ASCII `toLowerCase` on a `Char`. -/
def lowerChar (c : Char) : Char :=
  if 'A' ≤ c ∧ c ≤ 'Z' then Char.ofNat (c.toNat + 32) else c

/-- Backend `slugify` over Lean `String` (same pipeline as `slugify` on code
units; used for registry keys). -/
def slugifyStr (s : String) : String :=
  ⟨((((collapseChars false s.data).dropWhile (fun c => c == '-')).reverse.dropWhile
      (fun c => c == '-')).reverse).map lowerChar⟩

/-- Phase 1 of `syncFromIndex`: walk the index; for each enabled entry record
its slug, start a manager if none runs, else update the running manager's
whitelist.  Accumulates the `enabled` slug set and the emitted effects. -/
def syncPhase1 (r : Registry) (enabled : List String) (effs : List Eff) :
    List IndexEntry → Registry × List String × List Eff
  | [] => (r, enabled, effs)
  | e :: rest =>
    if e.target ≠ "" ∧ e.retention = true then
      let slug := slugifyStr e.target
      let enabled' := if enabled.contains slug then enabled else enabled ++ [slug]
      match mget slug r with
      | none =>
        syncPhase1 (r ++ [(slug, newManager e.topics)]) enabled'
          (effs ++ [Eff.startManager slug]) rest
      | some m =>
        let p := setTopicsWhitelist m e.topics
        syncPhase1 (mset slug p.1 r) enabled' (effs ++ p.2) rest
    else syncPhase1 r enabled effs rest

/-- `TargetRegistry.syncFromIndex`: phase 1 as above, then stop and drop every
manager whose slug is no longer enabled. -/
def syncFromIndex (r : Registry) (index : List IndexEntry) : Registry × List Eff :=
  let t := syncPhase1 r [] [] index
  let kept := t.1.filter (fun p => t.2.1.contains p.1)
  let stopped := t.1.filter (fun p => ¬ t.2.1.contains p.1)
  (kept, t.2.2 ++ stopped.map (fun p => Eff.stopManager p.1))

/-- The slugs of the enabled entries of an index, in order. -/
def activeSlugs (index : List IndexEntry) : List String :=
  (index.filter (fun e => decide (e.target ≠ "") && e.retention)).map
    (fun e => slugifyStr e.target)

/-- Index used by the sync-idempotence witness. -/
def wIndex : List IndexEntry :=
  [{ target := "ws://up:8765", retention := true, topics := some ["/a"] }]

/-- Reconciliation postcondition for one channel under a whitelist and a
subscription map: subscribed iff whitelisted. -/
def ChanOK (wl : Option (List String)) (subs : List (Nat × Nat)) (ch : Nat × String) : Prop :=
  if whitelistAllows wl ch.2 = true then (mget ch.1 subs).isSome = true
  else mget ch.1 subs = none

/-! ### Concrete instances used by closed theorems and witnesses -/

/-- A manager that has received an advertise for channel 7 on topic `/a`
(no whitelist) and subscribed to it. -/
def demoMgr : MState := (advertise (newManager none) [(7, "/a")]).1

/-- An upstream message for channel 7, delivered on subscription 0. -/
def demoMsg : UpMsg :=
  { subscriptionId := 0, channelId := 7, timestamp := 1000, data := [1] }

/-- Scenario E3, step 1: a manager whose whitelist is `["/a"]` receives an
advertise for channel 7 (`/a`) and channel 8 (`/b`). -/
def e3AfterAdvertise : MState :=
  (advertise (newManager (some ["/a"])) [(7, "/a"), (8, "/b")]).1

/-- Scenario E3, step 2: the topic filter changes from `["/a"]` to `["/b"]`. -/
def e3AfterFilterChange : MState × List Eff :=
  setTopicsWhitelist e3AfterAdvertise (some ["/b"])

/-- An old segment file (for the retention witness). -/
def demoOldSeg : FsFile := { name := "20240101_10.mcap", mtimeMs := 0 }

/-- A non-segment file in the target directory. -/
def demoNote : FsFile := { name := "notes.txt", mtimeMs := 0 }

/-- A segment file newer than the retention cutoff. -/
def demoNewSeg : FsFile := { name := "20240108_10.mcap", mtimeMs := 600000000 }

/-- A directory listing for the retention witness. -/
def demoDir : List FsFile := [demoOldSeg, demoNote, demoNewSeg]

/-- `persistedHistory` as computed in `attachClientServer`: the disk backlog
loaded against the ring-earliest map of the current ring. -/
def attachHist (earliestNs : Int) (topics : List String)
    (ring : List (String × List RingEntry)) (files : List DFile) :
    List (String × List DMsg) :=
  (loadPersistentHistory earliestNs topics (ringEarliestByTopic ring) files).1

/-- Ring state for the boundary witness: topic `/a` holds entries at 100 and
200 ns. -/
def wRing : List (String × List RingEntry) :=
  [("/a", [RingEntry.mk 100 [], RingEntry.mk 200 []])]

/-- Disk state for the boundary witness: one closed segment with `/a`
messages at 50 and 150 ns (150 overlaps the ring window). -/
def wFiles : List DFile :=
  [{ startMs := 0, isCurrent := false,
     msgs := [DMsg.mk "/a" 50 [1], DMsg.mk "/a" 150 [2]] }]

/-! ## Association-list lemmas -/

theorem mget_mset_self [DecidableEq κ] (k : κ) (v : α) (l : List (κ × α)) :
    mget k (mset k v l) = some v := by
  induction l with
  | nil => simp [mget, mset]
  | cons hd tl ih =>
    rcases hd with ⟨k', v'⟩
    by_cases h : k' = k
    · simp [mget, mset, h]
    · simp [mget, mset, h, ih]

theorem mget_mset_ne [DecidableEq κ] {k k' : κ} (h : k' ≠ k) (v : α) (l : List (κ × α)) :
    mget k (mset k' v l) = mget k l := by
  induction l with
  | nil => simp [mget, mset, h]
  | cons hd tl ih =>
    rcases hd with ⟨a, b⟩
    by_cases ha : a = k'
    · subst ha
      simp [mget, mset, h]
    · simp only [mset, if_neg ha]
      by_cases hak : a = k
      · simp [mget, hak]
      · simp [mget, hak, ih]

theorem mset_self [DecidableEq κ] {k : κ} {v : α} {l : List (κ × α)}
    (h : mget k l = some v) : mset k v l = l := by
  induction l with
  | nil => simp [mget] at h
  | cons hd tl ih =>
    rcases hd with ⟨a, b⟩
    by_cases ha : a = k
    · subst ha
      rw [mget, if_pos rfl] at h
      injection h with h
      subst h
      simp [mset]
    · simp only [mget, if_neg ha] at h
      simp [mset, ha, ih h]

theorem mem_mset [DecidableEq κ] {p : κ × α} {k : κ} {v : α} {l : List (κ × α)}
    (h : p ∈ mset k v l) : p = (k, v) ∨ p ∈ l := by
  induction l with
  | nil => simpa [mset] using h
  | cons hd tl ih =>
    rcases hd with ⟨a, b⟩
    by_cases ha : a = k
    · subst ha
      rcases List.mem_cons.mp (by simpa [mset] using h) with h1 | h1
      · exact Or.inl h1
      · exact Or.inr (List.mem_cons_of_mem _ h1)
    · rcases List.mem_cons.mp (by simpa [mset, ha] using h) with h1 | h1
      · exact Or.inr (h1 ▸ List.mem_cons_self _ _)
      · rcases ih h1 with h2 | h2
        · exact Or.inl h2
        · exact Or.inr (List.mem_cons_of_mem _ h2)

theorem mget_mdel_self [DecidableEq κ] (k : κ) (l : List (κ × α)) :
    mget k (mdel k l) = none := by
  induction l with
  | nil => rfl
  | cons hd tl ih =>
    rcases hd with ⟨a, b⟩
    by_cases ha : a = k
    · simpa [mdel, ha] using ih
    · simpa [mdel, ha, mget] using ih

theorem mget_mdel_ne [DecidableEq κ] {k k' : κ} (h : k' ≠ k) (l : List (κ × α)) :
    mget k (mdel k' l) = mget k l := by
  induction l with
  | nil => rfl
  | cons hd tl ih =>
    rcases hd with ⟨a, b⟩
    by_cases ha : a = k'
    · subst ha
      simpa [mdel, mget, h] using ih
    · by_cases hak : a = k
      · simp [mdel, ha, mget, hak, Ne.symm h]
      · simpa [mdel, ha, mget, hak] using ih

theorem mdel_of_mget_none [DecidableEq κ] {k : κ} {l : List (κ × α)}
    (h : mget k l = none) : mdel k l = l := by
  induction l with
  | nil => rfl
  | cons hd tl ih =>
    rcases hd with ⟨a, b⟩
    by_cases ha : a = k
    · simp [mget, ha] at h
    · simp only [mget, if_neg ha] at h
      simp [mdel, ha, ih h]

theorem mget_append [DecidableEq κ] (k : κ) (l₁ l₂ : List (κ × α)) :
    mget k (l₁ ++ l₂) =
      match mget k l₁ with
      | some v => some v
      | none => mget k l₂ := by
  induction l₁ with
  | nil => simp [mget]
  | cons hd tl ih =>
    rcases hd with ⟨a, b⟩
    by_cases ha : a = k
    · simp [mget, ha]
    · simp [mget, ha, ih]

theorem mget_mem [DecidableEq κ] {k : κ} {v : α} {l : List (κ × α)}
    (h : mget k l = some v) : (k, v) ∈ l := by
  induction l with
  | nil => simp [mget] at h
  | cons hd tl ih =>
    rcases hd with ⟨a, b⟩
    by_cases ha : a = k
    · subst ha
      rw [mget, if_pos rfl] at h
      injection h with h
      subst h
      exact List.mem_cons_self _ _
    · simp only [mget, if_neg ha] at h
      exact List.mem_cons_of_mem _ (ih h)

theorem mget_filter_key [DecidableEq κ] (q : κ → Bool) (k : κ) (l : List (κ × α)) :
    mget k (l.filter (fun p => q p.1)) = if q k then mget k l else none := by
  induction l with
  | nil => simp [mget]
  | cons hd tl ih =>
    rcases hd with ⟨a, b⟩
    by_cases ha : a = k
    · subst ha
      by_cases hq : q a
      · simp [List.filter, hq, mget, ih]
      · simp [List.filter, hq, mget, ih]
    · by_cases hq : q a
      · simp [List.filter, hq, mget, ha, ih]
      · simp [List.filter, hq, mget, ha, ih]

/-! ## Ring age bound (claim C5) -/

theorem evictHead_bound (c : Int) :
    ∀ l : List RingEntry, l.Pairwise (fun a b => a.t ≤ b.t) →
      ∀ e ∈ evictHead c l, c ≤ e.t := by
  intro l
  induction l with
  | nil =>
    intro _ e he
    simp [evictHead] at he
  | cons a rest ih =>
    intro hp e he
    rw [List.pairwise_cons] at hp
    by_cases hlt : a.t < c
    · simp only [evictHead, if_pos hlt] at he
      exact ih hp.2 e he
    · simp only [evictHead, if_neg hlt] at he
      rcases List.mem_cons.mp he with rfl | hmem
      · omega
      · have := hp.1 e hmem
        omega

/-- Claim C5 counterexample: pushing `t = 10` and then `t = 0` against cutoff
`5` — a non-monotonic timestamp sequence, which the claim explicitly covers —
leaves the stale entry `t = 0 < cutoff` in the ring, because `#storeRing`
evicts only from the head and stops at the newer head entry. -/
theorem storeRing_age_bound_cex :
    ¬ (∀ e ∈ storeRing (storeRing [] 10 [] 5) 0 [] 5, (5 : Int) ≤ e.t) := by
  decide

/-- Claim C5 (amended): after a push whose timestamp is not below any entry
already in the ring (in particular, for every non-decreasing sequence of
pushed timestamps), every entry remaining in the topic's ring satisfies
`t_ns ≥ now_ns - max_ring_age_ns` with `now_ns` sampled at the end of the
push. -/
theorem storeRing_age_bound (arr : List RingEntry) (t : Int) (p : List Nat) (cutoff : Int)
    (hmono : (arr ++ [RingEntry.mk t p]).Pairwise (fun a b => a.t ≤ b.t)) :
    ∀ e ∈ storeRing arr t p cutoff, cutoff ≤ e.t :=
  evictHead_bound cutoff _ hmono

theorem storeRing_age_bound_witness :
    (([RingEntry.mk 3 [7]] ++ [RingEntry.mk 4 []]).Pairwise (fun a b => a.t ≤ b.t)) ∧
    ∀ e ∈ storeRing [⟨3, [7]⟩] 4 [] 2, (2 : Int) ≤ e.t :=
  ⟨by decide, storeRing_age_bound [⟨3, [7]⟩] 4 [] 2 (by decide)⟩

/-! ## Ring written once per message (claim C1) -/

/-- Claim C1 is violated by the code: for a single accepted upstream message
on channel 7, the connector's recording path pushes the ring once, and each
attached session's live forwarder (a second listener on the same upstream
`message` event, matching `map.get(msg.channelId)`) pushes it again — two
ring writes with one attached session, against the claimed "exactly once
regardless of how many client sessions are attached" (which only holds with
no session attached). -/
theorem ring_written_twice_with_session :
    ringPushCount demoMgr [attachMap demoMgr.channels] demoMsg = 2 ∧
    ringPushCount demoMgr [] demoMsg = 1 := by
  decide

/-! ## Subscription parity across a filter change (claim C3) -/

/-- Claim C3 is violated by the code on scenario E3: the advertise handler
skips non-whitelisted channels entirely, so channel 8 (`/b`) never enters the
channel table while the filter is `["/a"]`; changing the filter to `["/b"]`
then removes the subscription to channel 7 but cannot add one for channel 8 —
`setTopicsWhitelist` only iterates the channel table, the filter-change step
emits a single `unsubscribe` and no `subscribe`, and the manager ends with no
subscriptions at all. -/
theorem filter_widening_adds_no_subscription :
    mget 8 e3AfterAdvertise.channels = none ∧
    mget 7 e3AfterFilterChange.1.subs = none ∧
    e3AfterFilterChange.1.subs = [] ∧
    e3AfterFilterChange.2 = [Eff.unsubscribe 0] := by
  decide

/-! ## Unknown slug at upgrade (claim C4) -/

/-- Claim C4 is violated by the code: for an upgrade request at `/ws/ghost`
with no running manager, `getOrCreate` does fail with the unknown-slug error
and no session is attached, but the socket is not destroyed — the rejection
of the `async` upgrade callback escapes the outer `try/catch` (an unhandled
promise rejection) after the WebSocket handshake has already completed. -/
theorem unknown_slug_socket_left_open :
    getOrCreate [] "ghost" = Except.error "Unknown target slug: ghost" ∧
    upgradeHandler [] "/ws/ghost" true =
      { socketDestroyed := false, closedBadProtocol := false, attachedTo := none,
        unhandledRejection := true } :=
  ⟨rfl, rfl⟩

/-! ## Backend vs front-end slug computation (claim C9) -/

theorem isAlnumF_eq_isAlnumB (c : Nat) : isAlnumF c = isAlnumB c := by
  unfold isAlnumF isAlnumB toLowerCode
  by_cases h : 65 ≤ c ∧ c ≤ 90
  · rw [if_pos h]
    exact decide_eq_decide.mpr (by omega)
  · rw [if_neg h]
    exact decide_eq_decide.mpr (by omega)

theorem collapseRuns_congr {p q : Nat → Bool} (h : ∀ c, p c = q c) :
    ∀ (b : Bool) (l : JStr), collapseRuns p b l = collapseRuns q b l := by
  intro b l
  induction l generalizing b with
  | nil => rfl
  | cons c rest ih => simp only [collapseRuns, h c, ih]

/-- Claim C9: the backend `slugify` and the front-end `slugifyTarget` compute
the same slug (lowercase, non-alphanumeric runs collapsed to `'-'`, edge
dashes trimmed — their regex classes `[^a-zA-Z0-9]` and `[^a-z0-9]/i`
coincide), and `slugifyTarget` returns `undefined` exactly when the input is
empty or the resulting slug is empty. -/
theorem slugifyTarget_eq_slugify (l : JStr) :
    slugifyTarget l = if l = [] ∨ slugify l = [] then none else some (slugify l) := by
  have hc : collapseRuns isAlnumF false l = collapseRuns isAlnumB false l :=
    collapseRuns_congr isAlnumF_eq_isAlnumB false l
  by_cases h1 : l = []
  · simp [slugifyTarget, h1]
  · by_cases h2 : slugify l = []
    · have hz : (trimDashes (collapseRuns isAlnumF false l)).map toLowerCode = [] := by
        rw [hc]
        exact h2
      simp [slugifyTarget, h1, h2, hz]
    · have hne : (trimDashes (collapseRuns isAlnumF false l)).map toLowerCode = slugify l := by
        rw [hc]
        rfl
      have hlen : (slugify l).length > 0 := List.length_pos.mpr h2
      simp [slugifyTarget, h1, h2, hne, hlen]

/-! ## Lookback parsing (claim C8) -/

theorem takeWhile_all_singleton (p : Nat → Bool) (ds : List Nat) (u : Nat)
    (hds : ∀ c ∈ ds, p c = true) (hu : p u = false) :
    (ds ++ [u]).takeWhile p = ds ∧ (ds ++ [u]).dropWhile p = [u] := by
  induction ds with
  | nil => simp [List.takeWhile, List.dropWhile, hu]
  | cons a t ih =>
    have ha := hds a (List.mem_cons_self a t)
    have iht := ih (fun c hc => hds c (List.mem_cons_of_mem a hc))
    constructor
    · simpa [List.takeWhile_cons, ha] using iht.1
    · simpa [List.dropWhile_cons, ha] using iht.2

theorem unit_not_digit {u : Nat} (hu : u ∈ lookbackUnits) : isDigitCode u = false := by
  simp only [lookbackUnits, List.mem_cons, List.not_mem_nil, or_false] at hu
  rcases hu with rfl | rfl | rfl | rfl | rfl <;> rfl

theorem matchLookback_eq_some (l : JStr) (ds : List Nat) (u : Nat) :
    matchLookback l = some (ds, u) ↔
      (l = ds ++ [u] ∧ ds ≠ [] ∧ (∀ c ∈ ds, isDigitCode c = true) ∧
        u ∈ lookbackUnits) := by
  constructor
  · intro h
    unfold matchLookback at h
    split at h
    · next u' heq =>
      by_cases hcond : l.takeWhile isDigitCode ≠ [] ∧ u' ∈ lookbackUnits
      · rw [if_pos hcond] at h
        injection h with h
        injection h with h1 h2
        subst h1
        subst h2
        refine ⟨?_, hcond.1, ?_, hcond.2⟩
        · rw [← heq, List.takeWhile_append_dropWhile]
        · intro c hc
          exact List.mem_takeWhile_imp hc
      · rw [if_neg hcond] at h
        exact absurd h (by simp)
    · exact absurd h (by simp)
  · rintro ⟨rfl, hne, hdig, hu⟩
    have hd := takeWhile_all_singleton isDigitCode ds u hdig (unit_not_digit hu)
    unfold matchLookback
    simp only [hd.1, hd.2]
    simp [hne, hu]

/-- Claim C8: `parseLookback` maps a string whose trimmed form is a digit run
followed by one unit in `{s, m, h, d, w}` to the parsed integer times the
unit's millisecond multiplier (1000, 60000, 3600000, 86400000, 604800000),
and every other string — including the empty one — to the supplied default;
the ring age default is 15 minutes when `HISTORY_LOOKBACK` is unset; and a
session's replay window start is `(now_ms - lookback_ms) * 10^6`
nanoseconds. -/
theorem parseLookback_spec :
    (∀ (text : JStr) (d : Nat) (ds : List Nat) (u : Nat),
        jsTrim text = ds ++ [u] → ds ≠ [] → (∀ c ∈ ds, isDigitCode c = true) →
        u ∈ lookbackUnits → parseLookback text d = digitsVal ds * multOf u) ∧
    (∀ (text : JStr) (d : Nat),
        (¬ ∃ ds u, jsTrim text = ds ++ [u] ∧ ds ≠ [] ∧
            (∀ c ∈ ds, isDigitCode c = true) ∧ u ∈ lookbackUnits) →
        parseLookback text d = d) ∧
    (multOf 115 = 1000 ∧ multOf 109 = 60000 ∧ multOf 104 = 3600000 ∧
      multOf 100 = 86400000 ∧ multOf 119 = 604800000) ∧
    maxRingMsOf none = 15 * 60000 ∧
    (∀ (nowMs : Int) (lookback : JStr) (m : Nat),
        sessionEarliestNs nowMs lookback m =
          (nowMs - (parseLookback lookback m : Int)) * 1000000) := by
  refine ⟨?_, ?_, ⟨rfl, rfl, rfl, rfl, rfl⟩, by decide, fun _ _ _ => rfl⟩
  · intro text d ds u htrim hne hdig hu
    have hmatch : matchLookback (jsTrim text) = some (ds, u) :=
      (matchLookback_eq_some _ ds u).mpr ⟨htrim, hne, hdig, hu⟩
    have htext : text ≠ [] := by
      intro h
      subst h
      have hz : jsTrim [] = [] := rfl
      rw [hz] at htrim
      have := congrArg List.length htrim
      simp at this
    unfold parseLookback
    rw [if_neg htext, hmatch]
  · intro text d hno
    by_cases htext : text = []
    · simp [parseLookback, htext]
    · rcases hm : matchLookback (jsTrim text) with _ | ⟨ds, u⟩
      · simp [parseLookback, htext, hm]
      · exact absurd ((matchLookback_eq_some _ ds u).mp hm) (by
          rintro ⟨h1, h2, h3, h4⟩
          exact hno ⟨ds, u, h1, h2, h3, h4⟩)

theorem parseLookback_spec_witness :
    parseLookback [57, 48, 115] 5 = 90000 ∧ parseLookback [120] 5 = 5 := by
  constructor
  · have h := parseLookback_spec.1 [57, 48, 115] 5 [57, 48] 115 (by decide) (by decide)
      (by decide) (by decide)
    exact h.trans (by decide)
  · refine parseLookback_spec.2.1 [120] 5 ?_
    rintro ⟨ds, u, heq, hne, hdig, hu⟩
    have h1 : jsTrim [120] = [120] := by decide
    rw [h1] at heq
    rcases ds with _ | ⟨a, t⟩
    · exact hne rfl
    · rw [List.cons_append] at heq
      injection heq with h2 h3
      have h4 := h3.symm
      rw [List.append_eq_nil] at h4
      exact absurd h4.2 (by simp)

/-! ## Retention sweep (claim C7) -/

/-- Claim C7: with all unlinks succeeding, a sweep cycle deletes exactly the
files whose name ends in `.mcap` and whose modification time is older than
`retention_days * 86400` seconds: survival is characterized accordingly, no
old segment remains, non-`.mcap` files and new-enough segments are
untouched, and the default retention is 7 days (`RETENTION_DAYS` unset).
Unlink errors are swallowed: the sweep always completes, a failed unlink
merely leaves its file behind (`unlinkOk`). -/
theorem cleanupRetention_spec (files : List FsFile) (nowMs days : Int)
    (unlinkOk : FsFile → Bool) (hok : ∀ f, unlinkOk f = true) :
    (∀ f, f ∈ cleanupRetention files nowMs days unlinkOk ↔
        (f ∈ files ∧
          ¬ (endsWithMcap f.name = true ∧ f.mtimeMs < nowMs - days * 86400000))) ∧
    (∀ f ∈ cleanupRetention files nowMs days unlinkOk,
        endsWithMcap f.name = true → nowMs - days * 86400000 ≤ f.mtimeMs) ∧
    (∀ f ∈ files, endsWithMcap f.name = false →
        f ∈ cleanupRetention files nowMs days unlinkOk) ∧
    (∀ f ∈ files, nowMs - days * 86400000 ≤ f.mtimeMs →
        f ∈ cleanupRetention files nowMs days unlinkOk) ∧
    retentionDaysOf none = some 7 := by
  have hkeep : ∀ f, retentionKeeps (nowMs - days * 86400000) unlinkOk f = true ↔
      ¬ (endsWithMcap f.name = true ∧ f.mtimeMs < nowMs - days * 86400000) := by
    intro f
    unfold retentionKeeps
    by_cases h1 : endsWithMcap f.name
    · by_cases h2 : f.mtimeMs < nowMs - days * 86400000
      · simp [h1, h2, hok f]
      · simp [h1, h2]
    · simp [h1]
  refine ⟨?_, ?_, ?_, ?_, rfl⟩
  · intro f
    rw [cleanupRetention, List.mem_filter, hkeep f]
  · intro f hf hm
    have h2 := (List.mem_filter.mp (by simpa [cleanupRetention] using hf)).2
    rw [hkeep f] at h2
    by_contra hlt
    exact h2 ⟨hm, by omega⟩
  · intro f hf hno
    rw [cleanupRetention, List.mem_filter]
    exact ⟨hf, (hkeep f).mpr (by simp [hno])⟩
  · intro f hf hge
    rw [cleanupRetention, List.mem_filter]
    refine ⟨hf, (hkeep f).mpr ?_⟩
    rintro ⟨_, h2⟩
    omega

theorem cleanupRetention_spec_witness :
    demoOldSeg ∉ cleanupRetention demoDir 604800005 7 (fun _ => true) ∧
    demoNote ∈ cleanupRetention demoDir 604800005 7 (fun _ => true) ∧
    demoNewSeg ∈ cleanupRetention demoDir 604800005 7 (fun _ => true) := by
  have h := cleanupRetention_spec demoDir 604800005 7 (fun _ => true) (fun _ => rfl)
  refine ⟨?_, ?_, ?_⟩
  · intro hmem
    exact ((h.1 demoOldSeg).mp hmem).2 (by decide)
  · exact (h.1 demoNote).mpr ⟨by decide, by decide⟩
  · exact (h.1 demoNewSeg).mpr ⟨by decide, by decide⟩

/-! ## Attach with an empty channel table (claim C10) -/

/-- Claim C10: a session attached while the manager's channel table is empty
receives no historical messages at all — the snapshot topic set is empty,
`#loadPersistentHistory` short-circuits to an empty map without opening any
segment file (opened count 0), and the `subscribe` handler sends nothing,
regardless of what the on-disk segments contain. -/
theorem attach_empty_channels_no_history (earliestNs : Int)
    (ring : List (String × List RingEntry)) (files : List DFile) (serverChanId : Nat) :
    attachTopics [] = [] ∧
    loadPersistentHistory earliestNs (attachTopics []) (ringEarliestByTopic ring) files
      = ([], 0) ∧
    onSubscribe (serverChannelToTopic [])
      (loadPersistentHistory earliestNs (attachTopics []) (ringEarliestByTopic ring)
        files).1
      ring earliestNs serverChanId = [] := by
  exact ⟨rfl, rfl, rfl⟩

/-! ## Disk/ring boundary at attach (claim C2) -/

theorem mem_insertLe (le : α → α → Bool) (a x : α) :
    ∀ l : List α, x ∈ insertLe le a l ↔ x = a ∨ x ∈ l := by
  intro l
  induction l with
  | nil => simp [insertLe]
  | cons b t ih =>
    by_cases h : le b a
    · simp only [insertLe, if_pos h, List.mem_cons, ih]
      tauto
    · simp only [insertLe, if_neg h, List.mem_cons]

theorem pairwise_insertLe (le : α → α → Bool)
    (htot : ∀ a b, le a b = true ∨ le b a = true)
    (htrans : ∀ a b c, le a b = true → le b c = true → le a c = true) (a : α) :
    ∀ l : List α, l.Pairwise (fun x y => le x y = true) →
      (insertLe le a l).Pairwise (fun x y => le x y = true) := by
  intro l
  induction l with
  | nil =>
    intro _
    simp [insertLe]
  | cons b t ih =>
    intro hp
    rw [List.pairwise_cons] at hp
    by_cases h : le b a
    · simp only [insertLe, if_pos h]
      rw [List.pairwise_cons]
      constructor
      · intro x hx
        rcases (mem_insertLe le a x t).mp hx with rfl | hxt
        · exact h
        · exact hp.1 x hxt
      · exact ih hp.2
    · simp only [insertLe, if_neg h]
      have hab : le a b = true := (htot a b).resolve_right (by simpa using h)
      rw [List.pairwise_cons]
      constructor
      · intro x hx
        rcases List.mem_cons.mp hx with rfl | hxt
        · exact hab
        · exact htrans a b x hab (hp.1 x hxt)
      · exact List.Pairwise.cons hp.1 hp.2

theorem mem_sortStable_fold (le : α → α → Bool) (x : α) :
    ∀ (l acc : List α),
      x ∈ l.foldl (fun acc a => insertLe le a acc) acc ↔ x ∈ acc ∨ x ∈ l := by
  intro l
  induction l with
  | nil =>
    intro acc
    simp
  | cons a t ih =>
    intro acc
    rw [List.foldl_cons, ih, mem_insertLe]
    simp only [List.mem_cons]
    tauto

theorem mem_sortStable (le : α → α → Bool) (x : α) (l : List α) :
    x ∈ sortStable le l ↔ x ∈ l := by
  unfold sortStable
  rw [mem_sortStable_fold]
  simp

theorem pairwise_sortStable (le : α → α → Bool)
    (htot : ∀ a b, le a b = true ∨ le b a = true)
    (htrans : ∀ a b c, le a b = true → le b c = true → le a c = true) (l : List α) :
    (sortStable le l).Pairwise (fun x y => le x y = true) := by
  unfold sortStable
  have hfold : ∀ (l₀ acc : List α), acc.Pairwise (fun x y => le x y = true) →
      (l₀.foldl (fun acc a => insertLe le a acc) acc).Pairwise
        (fun x y => le x y = true) := by
    intro l₀
    induction l₀ with
    | nil => exact fun acc h => h
    | cons a t ih => exact fun acc h => ih _ (pairwise_insertLe le htot htrans a acc h)
  exact hfold l [] (by simp)

theorem sortByTime_sorted (l : List DMsg) :
    (sortByTime l).Pairwise (fun a b => a.t ≤ b.t) := by
  have h := pairwise_sortStable (fun a b : DMsg => decide (a.t ≤ b.t))
    (fun a b => by
      rcases le_total a.t b.t with h | h
      · exact Or.inl (by simpa using h)
      · exact Or.inr (by simpa using h))
    (fun a b c h1 h2 => by
      simp only [decide_eq_true_eq] at h1 h2 ⊢
      omega) l
  exact h.imp (fun hx => by simpa using hx)

theorem mget_map_sortByTime (tp : String) :
    ∀ h : List (String × List DMsg),
      mget tp (h.map (fun q => (q.1, sortByTime q.2))) = (mget tp h).map sortByTime := by
  intro h
  induction h with
  | nil => rfl
  | cons hd tl ih =>
    rcases hd with ⟨a, b⟩
    by_cases ha : a = tp
    · simp [mget, ha]
    · simp [mget, ha, ih]

theorem mget_eq_none_of_not_mem_keys [DecidableEq κ] {k : κ} :
    ∀ {l : List (κ × α)}, k ∉ l.map Prod.fst → mget k l = none := by
  intro l
  induction l with
  | nil => intro _; rfl
  | cons hd tl ih =>
    rcases hd with ⟨a, b⟩
    intro hk
    have h1 : ¬ a = k := by
      intro h
      exact hk (by simp [h])
    have h2 : k ∉ tl.map Prod.fst := by
      intro h
      exact hk (by simp [h])
    rw [mget, if_neg h1]
    exact ih h2

theorem keys_ringEarliestByTopic {ring : List (String × List RingEntry)} :
    ∀ q ∈ ringEarliestByTopic ring, q.1 ∈ ring.map Prod.fst := by
  intro q hq
  rcases List.mem_filterMap.mp hq with ⟨p, hp, hmatch⟩
  rcases p with ⟨tp, arr⟩
  rcases arr with _ | ⟨e, rest⟩
  · simp at hmatch
  · simp only [Option.some.injEq] at hmatch
    subst hmatch
    exact List.mem_map.mpr ⟨(tp, e :: rest), hp, rfl⟩

theorem mget_ringEarliestByTopic {ring : List (String × List RingEntry)}
    (hkeys : (ring.map Prod.fst).Nodup) {tp : String} {arr : List RingEntry}
    (h : mget tp ring = some arr) :
    mget tp (ringEarliestByTopic ring) = arr.head?.map (fun e => e.t) := by
  induction ring with
  | nil => simp [mget] at h
  | cons hd rest ih =>
    rcases hd with ⟨tp', l⟩
    rw [List.map_cons, List.nodup_cons] at hkeys
    by_cases htp : tp' = tp
    · subst htp
      rw [mget, if_pos rfl] at h
      injection h with h
      subst arr
      rcases l with _ | ⟨e, es⟩
      · simp only [ringEarliestByTopic, List.filterMap_cons]
        rcases hx : mget tp' (ringEarliestByTopic rest) with _ | x
        · simpa [ringEarliestByTopic] using hx
        · exact absurd (keys_ringEarliestByTopic _ (mget_mem hx)) hkeys.1
      · simp [ringEarliestByTopic, List.filterMap_cons, mget]
    · rcases l with _ | ⟨e, es⟩
      · simpa [ringEarliestByTopic, List.filterMap_cons] using
          ih hkeys.2 (by simpa [mget, htp] using h)
      · have hrec := ih hkeys.2 (by simpa [mget, htp] using h)
        simpa [ringEarliestByTopic, List.filterMap_cons, mget, htp] using hrec

theorem histInsert_mem {accept : DMsg → Bool} {h : List (String × List DMsg)}
    (hH : ∀ tp l, mget tp h = some l → ∀ m ∈ l, accept m = true ∧ m.topic = tp)
    {m0 : DMsg} (hm0 : accept m0 = true) :
    ∀ tp l, mget tp (histInsert h m0) = some l →
      ∀ m ∈ l, accept m = true ∧ m.topic = tp := by
  intro tp l hl m hm
  unfold histInsert at hl
  rcases hget : mget m0.topic h with _ | arr
  · rw [hget] at hl
    by_cases htp : m0.topic = tp
    · subst htp
      rw [mget_mset_self] at hl
      injection hl with hl
      subst hl
      have hm' := List.mem_singleton.mp hm
      subst hm'
      exact ⟨hm0, rfl⟩
    · rw [mget_mset_ne htp] at hl
      exact hH tp l hl m hm
  · rw [hget] at hl
    by_cases htp : m0.topic = tp
    · subst htp
      rw [mget_mset_self] at hl
      injection hl with hl
      subst hl
      rcases List.mem_append.mp hm with hm1 | hm2
      · exact hH m0.topic arr hget m hm1
      · have hm' := List.mem_singleton.mp hm2
        subst hm'
        exact ⟨hm0, rfl⟩
    · rw [mget_mset_ne htp] at hl
      exact hH tp l hl m hm

theorem histFold_mem {accept : DMsg → Bool} :
    ∀ (ms : List DMsg) (h : List (String × List DMsg)),
      (∀ m ∈ ms, accept m = true) →
      (∀ tp l, mget tp h = some l → ∀ m ∈ l, accept m = true ∧ m.topic = tp) →
      ∀ tp l, mget tp (ms.foldl histInsert h) = some l →
        ∀ m ∈ l, accept m = true ∧ m.topic = tp := by
  intro ms
  induction ms with
  | nil => exact fun h _ hH => hH
  | cons m0 mt ih =>
    intro h hms hH
    exact ih _ (fun m hm => hms m (List.mem_cons_of_mem _ hm))
      (histInsert_mem hH (hms m0 (List.mem_cons_self _ _)))

theorem histFiles_mem (earliestNs : Int) (topics : List String)
    (ringE : List (String × Int)) :
    ∀ (fs : List DFile) (acc : List (String × List DMsg) × Nat),
      (∀ tp l, mget tp acc.1 = some l → ∀ m ∈ l,
          acceptDisk earliestNs topics ringE m = true ∧ m.topic = tp) →
      ∀ tp l,
        mget tp (fs.foldl (historyStep earliestNs topics ringE) acc).1 = some l →
        ∀ m ∈ l, acceptDisk earliestNs topics ringE m = true ∧ m.topic = tp := by
  intro fs
  induction fs with
  | nil => exact fun acc hH => hH
  | cons f ft ih =>
    intro acc hH
    rw [List.foldl_cons]
    apply ih
    unfold historyStep
    by_cases hc : f.isCurrent
    · simpa [hc] using hH
    · simp only [hc, if_false, Bool.false_eq_true]
      exact histFold_mem _ _ (fun m hm => (List.mem_filter.mp hm).2) hH

theorem attachHist_mem {earliestNs : Int} {topics : List String}
    {ring : List (String × List RingEntry)} {files : List DFile} {tp : String}
    {l : List DMsg}
    (h : mget tp (attachHist earliestNs topics ring files) = some l) :
    ∀ m ∈ l,
      acceptDisk earliestNs topics (ringEarliestByTopic ring) m = true ∧
        m.topic = tp := by
  by_cases ht : topics = []
  · simp [attachHist, loadPersistentHistory, ht, mget] at h
  · simp only [attachHist, loadPersistentHistory, if_neg ht] at h
    rw [mget_map_sortByTime] at h
    rcases hpre : mget tp
        ((sortByStart (files.filter (fun f =>
            decide (Int.tdiv earliestNs 1000000 ≤ f.startMs + 3600000)))).foldl
          (historyStep earliestNs topics (ringEarliestByTopic ring)) ([], 0)).1
      with _ | l₀
    · rw [hpre] at h
      simp at h
    · rw [hpre] at h
      injection h with h
      subst h
      intro m hm
      have hm₀ : m ∈ l₀ := (mem_sortStable _ m l₀).mp hm
      exact histFiles_mem earliestNs topics (ringEarliestByTopic ring) _ ([], 0)
        (by intro tp₁ l₁ hl₁; simp [mget] at hl₁) tp l₀ hpre m hm₀

theorem attachHist_sorted {earliestNs : Int} {topics : List String}
    {ring : List (String × List RingEntry)} {files : List DFile} {tp : String}
    {l : List DMsg}
    (h : mget tp (attachHist earliestNs topics ring files) = some l) :
    l.Pairwise (fun a b => a.t ≤ b.t) := by
  by_cases ht : topics = []
  · simp [attachHist, loadPersistentHistory, ht, mget] at h
  · simp only [attachHist, loadPersistentHistory, if_neg ht] at h
    rw [mget_map_sortByTime] at h
    rcases hpre : mget tp
        ((sortByStart (files.filter (fun f =>
            decide (Int.tdiv earliestNs 1000000 ≤ f.startMs + 3600000)))).foldl
          (historyStep earliestNs topics (ringEarliestByTopic ring)) ([], 0)).1
      with _ | l₀
    · rw [hpre] at h
      simp at h
    · rw [hpre] at h
      injection h with h
      subst h
      exact sortByTime_sorted l₀

/-- Claim C2: for every session attach and topic, every delivered disk-backlog
message lies in the window (`t ≥ earliest_ns`) and strictly below the topic's
ring head whenever the ring is non-empty at attach time; every delivered ring
entry lies in the window; the per-topic disk backlog is sorted ascending by
log time and is delivered before the ring entries; and (for a ring whose
per-topic array is time-sorted, i.e. `ring.earliest` is its minimum, as the
spec's data-model invariant states) no timestamp is delivered from both sides
of the disk/ring boundary. -/
theorem attach_disk_ring_boundary (earliestNs : Int) (topics : List String)
    (ring : List (String × List RingEntry)) (files : List DFile) (topic : String)
    (hkeys : (ring.map Prod.fst).Nodup)
    (hsorted : ∀ arr, mget topic ring = some arr →
      arr.Pairwise (fun a b => a.t ≤ b.t)) :
    (∀ m ∈ diskSent (attachHist earliestNs topics ring files) earliestNs topic,
        earliestNs ≤ m.t ∧
          ∀ c, mget topic (ringEarliestByTopic ring) = some c → m.t < c) ∧
    (∀ e ∈ ringSent ring earliestNs topic, earliestNs ≤ e.t) ∧
    (diskSent (attachHist earliestNs topics ring files) earliestNs topic).Pairwise
      (fun a b => a.t ≤ b.t) ∧
    (∀ sct chId, mget chId sct = some topic →
        onSubscribe sct (attachHist earliestNs topics ring files) ring earliestNs chId =
          (diskSent (attachHist earliestNs topics ring files) earliestNs topic).map
              (fun m => (m.t, m.p)) ++
            (ringSent ring earliestNs topic).map (fun e => (e.t, e.p))) ∧
    (∀ m ∈ diskSent (attachHist earliestNs topics ring files) earliestNs topic,
        ∀ e ∈ ringSent ring earliestNs topic, m.t ≠ e.t) := by
  have hdisk : ∀ m ∈ diskSent (attachHist earliestNs topics ring files) earliestNs topic,
      earliestNs ≤ m.t ∧
        ∀ c, mget topic (ringEarliestByTopic ring) = some c → m.t < c := by
    intro m hm
    unfold diskSent at hm
    rcases hh : mget topic (attachHist earliestNs topics ring files) with _ | l
    · rw [hh] at hm
      simp at hm
    · rw [hh] at hm
      have hmem := List.mem_filter.mp hm
      have hacc := attachHist_mem hh m hmem.1
      have htp := hacc.2
      have hbool := hacc.1
      unfold acceptDisk at hbool
      rw [htp] at hbool
      simp only [Bool.and_eq_true, decide_eq_true_eq] at hbool
      refine ⟨hbool.2, ?_⟩
      intro c hc
      have hmatch := hbool.1.2
      rw [hc] at hmatch
      simpa using hmatch
  have hringS : ∀ e ∈ ringSent ring earliestNs topic, earliestNs ≤ e.t := by
    intro e he
    unfold ringSent at he
    rcases hr : mget topic ring with _ | arr
    · rw [hr] at he
      simp at he
    · rw [hr] at he
      have := (List.mem_filter.mp he).2
      simpa using this
  have hsortedD : (diskSent (attachHist earliestNs topics ring files) earliestNs
      topic).Pairwise (fun a b => a.t ≤ b.t) := by
    unfold diskSent
    rcases hh : mget topic (attachHist earliestNs topics ring files) with _ | l
    · simp
    · exact List.Pairwise.filter _ (attachHist_sorted hh)
  have hord : ∀ sct chId, mget chId sct = some topic →
      onSubscribe sct (attachHist earliestNs topics ring files) ring earliestNs chId =
        (diskSent (attachHist earliestNs topics ring files) earliestNs topic).map
            (fun m => (m.t, m.p)) ++
          (ringSent ring earliestNs topic).map (fun e => (e.t, e.p)) := by
    intro sct chId hc
    unfold onSubscribe
    rw [hc]
  have hnodup : ∀ m ∈ diskSent (attachHist earliestNs topics ring files) earliestNs topic,
      ∀ e ∈ ringSent ring earliestNs topic, m.t ≠ e.t := by
    intro m hm e he
    unfold ringSent at he
    rcases hr : mget topic ring with _ | arr
    · rw [hr] at he
      simp at he
    · rw [hr] at he
      have hearr : e ∈ arr := (List.mem_filter.mp he).1
      rcases arr with _ | ⟨e0, es⟩
      · simp at hearr
      · have hE : mget topic (ringEarliestByTopic ring) = some e0.t := by
          simpa using mget_ringEarliestByTopic hkeys hr
        have hlt : m.t < e0.t := (hdisk m hm).2 e0.t hE
        have hsort := hsorted _ hr
        rw [List.pairwise_cons] at hsort
        rcases List.mem_cons.mp hearr with rfl | hes
        · omega
        · have := hsort.1 e hes
          omega
  exact ⟨hdisk, hringS, hsortedD, hord, hnodup⟩

theorem attach_disk_ring_boundary_witness :
    (wRing.map Prod.fst).Nodup ∧
    (∀ m ∈ diskSent (attachHist 0 ["/a"] wRing wFiles) 0 "/a",
        ∀ e ∈ ringSent wRing 0 "/a", m.t ≠ e.t) := by
  have hs : ∀ arr, mget "/a" wRing = some arr →
      arr.Pairwise (fun a b => a.t ≤ b.t) := by
    intro arr h
    have heval : mget "/a" wRing = some [RingEntry.mk 100 [], RingEntry.mk 200 []] := by
      decide
    rw [heval] at h
    injection h with h
    subst arr
    constructor
    · intro b hb
      rcases List.mem_cons.mp hb with rfl | hb2
      · decide
      · simp at hb2
    · simp [List.pairwise_cons]
  exact ⟨by decide,
    (attach_disk_ring_boundary 0 ["/a"] wRing wFiles "/a" (by decide) hs).2.2.2.2⟩

/-! ## Registry sync idempotence (claim C6) — manager-level lemmas -/

theorem ensureSubscribed_fields (s : MState) (id : Nat) (tp : String) :
    (ensureSubscribed s id tp).1.channels = s.channels ∧
    (ensureSubscribed s id tp).1.whitelist = s.whitelist ∧
    (ensureSubscribed s id tp).1.clientUp = s.clientUp := by
  unfold ensureSubscribed
  split <;> exact ⟨rfl, rfl, rfl⟩

theorem ensureUnsubscribed_fields (s : MState) (id : Nat) :
    (ensureUnsubscribed s id).1.channels = s.channels ∧
    (ensureUnsubscribed s id).1.whitelist = s.whitelist ∧
    (ensureUnsubscribed s id).1.clientUp = s.clientUp := by
  unfold ensureUnsubscribed
  split
  · exact ⟨rfl, rfl, rfl⟩
  · split
    · exact ⟨rfl, rfl, rfl⟩
    · exact ⟨rfl, rfl, rfl⟩

theorem reconcileChannels_fields :
    ∀ (chs : List (Nat × String)) (s : MState),
      (reconcileChannels s chs).1.channels = s.channels ∧
      (reconcileChannels s chs).1.whitelist = s.whitelist ∧
      (reconcileChannels s chs).1.clientUp = s.clientUp := by
  intro chs
  induction chs with
  | nil => exact fun s => ⟨rfl, rfl, rfl⟩
  | cons ch rest ih =>
    intro s
    unfold reconcileChannels
    by_cases hw : whitelistAllows s.whitelist ch.2
    · simp only [if_pos hw]
      have h1 := ensureSubscribed_fields s ch.1 ch.2
      have h2 := ih (ensureSubscribed s ch.1 ch.2).1
      exact ⟨h2.1.trans h1.1, h2.2.1.trans h1.2.1, h2.2.2.trans h1.2.2⟩
    · simp only [if_neg hw]
      have h1 := ensureUnsubscribed_fields s ch.1
      have h2 := ih (ensureUnsubscribed s ch.1).1
      exact ⟨h2.1.trans h1.1, h2.2.1.trans h1.2.1, h2.2.2.trans h1.2.2⟩

theorem ensureSubscribed_subs_frame (s : MState) {id id' : Nat} (tp : String)
    (h : id ≠ id') : mget id (ensureSubscribed s id' tp).1.subs = mget id s.subs := by
  unfold ensureSubscribed
  split
  · rfl
  · exact mget_mset_ne (Ne.symm h) _ _

theorem ensureUnsubscribed_subs_frame (s : MState) {id id' : Nat}
    (h : id ≠ id') : mget id (ensureUnsubscribed s id').1.subs = mget id s.subs := by
  unfold ensureUnsubscribed
  split
  · exact mget_mdel_ne (Ne.symm h) _
  · split
    · exact mget_mdel_ne (Ne.symm h) _
    · exact mget_mdel_ne (Ne.symm h) _

theorem reconcileChannels_subs_frame :
    ∀ (chs : List (Nat × String)) (s : MState) (id : Nat),
      id ∉ chs.map Prod.fst →
      mget id (reconcileChannels s chs).1.subs = mget id s.subs := by
  intro chs
  induction chs with
  | nil => exact fun s id _ => rfl
  | cons ch rest ih =>
    intro s id hid
    simp only [List.map_cons, List.mem_cons] at hid
    push_neg at hid
    unfold reconcileChannels
    by_cases hw : whitelistAllows s.whitelist ch.2
    · simp only [if_pos hw]
      exact (ih _ id hid.2).trans (ensureSubscribed_subs_frame s ch.2 hid.1)
    · simp only [if_neg hw]
      exact (ih _ id hid.2).trans (ensureUnsubscribed_subs_frame s hid.1)

theorem ensureSubscribed_establishes (s : MState) (id : Nat) (tp : String)
    (hc : s.clientUp = true) :
    (mget id (ensureSubscribed s id tp).1.subs).isSome = true := by
  unfold ensureSubscribed
  by_cases hs : (mget id s.subs).isSome
  · rw [if_pos (Or.inr hs)]
    exact hs
  · rw [if_neg (by
      rintro (h1 | h2)
      · exact h1 hc
      · exact hs h2)]
    simp [mget_mset_self]

theorem ensureUnsubscribed_establishes (s : MState) (id : Nat) :
    mget id (ensureUnsubscribed s id).1.subs = none := by
  unfold ensureUnsubscribed
  split
  · exact mget_mdel_self id s.subs
  · split
    · exact mget_mdel_self id s.subs
    · exact mget_mdel_self id s.subs

theorem reconcileChannels_establishes :
    ∀ (chs : List (Nat × String)) (s : MState),
      s.clientUp = true →
      (chs.map Prod.fst).Nodup →
      ∀ ch ∈ chs,
        ChanOK (reconcileChannels s chs).1.whitelist
          (reconcileChannels s chs).1.subs ch := by
  intro chs
  induction chs with
  | nil =>
    intro s _ _ ch hch
    simp at hch
  | cons c0 rest ih =>
    intro s hc hnd ch hch
    rw [List.map_cons, List.nodup_cons] at hnd
    unfold reconcileChannels
    by_cases hw : whitelistAllows s.whitelist c0.2
    · simp only [if_pos hw]
      rcases List.mem_cons.mp hch with rfl | hrest
      · -- the processed channel itself; framed through the rest
        have hfr := reconcileChannels_subs_frame rest (ensureSubscribed s ch.1 ch.2).1
          ch.1 hnd.1
        have hwl := (reconcileChannels_fields rest (ensureSubscribed s ch.1 ch.2).1).2.1
        have hwl2 := (ensureSubscribed_fields s ch.1 ch.2).2.1
        unfold ChanOK
        rw [hwl, hwl2, if_pos hw, hfr]
        exact ensureSubscribed_establishes s ch.1 ch.2 hc
      · exact ih _ ((ensureSubscribed_fields s c0.1 c0.2).2.2.trans hc) hnd.2 ch hrest
    · simp only [if_neg hw]
      rcases List.mem_cons.mp hch with rfl | hrest
      · have hfr := reconcileChannels_subs_frame rest (ensureUnsubscribed s ch.1).1
          ch.1 hnd.1
        have hwl := (reconcileChannels_fields rest (ensureUnsubscribed s ch.1).1).2.1
        have hwl2 := (ensureUnsubscribed_fields s ch.1).2.1
        unfold ChanOK
        rw [hwl, hwl2, if_neg (by simpa using hw), hfr]
        exact ensureUnsubscribed_establishes s ch.1
      · exact ih _ ((ensureUnsubscribed_fields s c0.1).2.2.trans hc) hnd.2 ch hrest

theorem reconcileChannels_noop :
    ∀ (chs : List (Nat × String)) (s : MState),
      (∀ ch ∈ chs, ChanOK s.whitelist s.subs ch) →
      reconcileChannels s chs = (s, []) := by
  intro chs
  induction chs with
  | nil => exact fun s _ => rfl
  | cons c0 rest ih =>
    intro s hok
    have h0 := hok c0 (List.mem_cons_self _ _)
    unfold ChanOK at h0
    unfold reconcileChannels
    by_cases hw : whitelistAllows s.whitelist c0.2
    · rw [if_pos hw] at h0
      have hsub : ensureSubscribed s c0.1 c0.2 = (s, []) := by
        unfold ensureSubscribed
        rw [if_pos (Or.inr h0)]
      simp only [if_pos hw, hsub]
      have hrest := ih s (fun ch hch => hok ch (List.mem_cons_of_mem _ hch))
      rw [hrest]
      rfl
    · rw [if_neg (by simpa using hw)] at h0
      have hdel : mdel c0.1 s.subs = s.subs := mdel_of_mget_none h0
      have huns : ensureUnsubscribed s c0.1 = (s, []) := by
        unfold ensureUnsubscribed
        rw [h0, hdel]
      simp only [if_neg hw, huns]
      have hrest := ih s (fun ch hch => hok ch (List.mem_cons_of_mem _ hch))
      rw [hrest]
      rfl

theorem setTopicsWhitelist_eq (s0 : MState) (tp : Option (List String)) :
    setTopicsWhitelist s0 tp =
      if s0.clientUp
      then reconcileChannels { s0 with whitelist := normalizeTopics tp } s0.channels
      else ({ s0 with whitelist := normalizeTopics tp }, []) := rfl

theorem setTopicsWhitelist_channels (s : MState) (tp : Option (List String)) :
    (setTopicsWhitelist s tp).1.channels = s.channels := by
  rw [setTopicsWhitelist_eq]
  by_cases hc : s.clientUp
  · rw [if_pos hc]
    exact (reconcileChannels_fields s.channels _).1
  · rw [if_neg hc]

theorem mstate_set_whitelist_self (x : MState) {w : Option (List String)}
    (h : x.whitelist = w) : { x with whitelist := w } = x := by
  subst h
  rfl

theorem setTopicsWhitelist_idem (s : MState) (tp : Option (List String))
    (hch : (s.channels.map Prod.fst).Nodup) :
    setTopicsWhitelist (setTopicsWhitelist s tp).1 tp =
      ((setTopicsWhitelist s tp).1, []) := by
  rw [setTopicsWhitelist_eq s tp]
  by_cases hc : s.clientUp
  · rw [if_pos hc]
    set s1 : MState := { s with whitelist := normalizeTopics tp } with hs1
    set X : MState := (reconcileChannels s1 s.channels).1 with hX
    have hf := reconcileChannels_fields s.channels s1
    have h1 : s1.clientUp = s.clientUp := by rw [hs1]
    rw [setTopicsWhitelist_eq]
    have hcu : X.clientUp = true := hf.2.2.trans (h1.trans hc)
    rw [if_pos hcu]
    have hwl : X.whitelist = normalizeTopics tp := hf.2.1.trans (by rw [hs1])
    rw [mstate_set_whitelist_self X hwl]
    have hchX : X.channels = s.channels := hf.1.trans (by rw [hs1])
    rw [hchX]
    apply reconcileChannels_noop
    intro ch hchmem
    exact reconcileChannels_establishes s.channels s1 (h1.trans hc) hch ch hchmem
  · rw [if_neg hc]
    rw [setTopicsWhitelist_eq]
    rw [if_neg hc]

theorem setTopicsWhitelist_newManager (tp : Option (List String)) :
    setTopicsWhitelist (newManager tp) tp = (newManager tp, []) := rfl

/-! ## Registry sync idempotence (claim C6) — registry-level lemmas -/

theorem activeSlugs_cons_pos {e : IndexEntry} (rest : List IndexEntry)
    (h : e.target ≠ "" ∧ e.retention = true) :
    activeSlugs (e :: rest) = slugifyStr e.target :: activeSlugs rest := by
  have hb : (decide (e.target ≠ "") && e.retention) = true := by
    simp [h.1, h.2]
  unfold activeSlugs
  rw [List.filter_cons, if_pos hb, List.map_cons]

theorem activeSlugs_cons_neg {e : IndexEntry} (rest : List IndexEntry)
    (h : ¬ (e.target ≠ "" ∧ e.retention = true)) :
    activeSlugs (e :: rest) = activeSlugs rest := by
  have hb : (decide (e.target ≠ "") && e.retention) = false := by
    rcases not_and_or.mp h with h1 | h2
    · simp [not_not.mp h1]
    · have h2' : e.retention = false := Bool.eq_false_iff.mpr h2
      rw [h2', Bool.and_false]
  unfold activeSlugs
  rw [List.filter_cons, if_neg (by rw [hb]; decide)]

theorem syncPhase1_noop :
    ∀ (idx : List IndexEntry) (r : Registry) (en : List String) (effs : List Eff),
      (∀ e ∈ idx, e.target ≠ "" → e.retention = true →
        ∃ m, mget (slugifyStr e.target) r = some m ∧
          setTopicsWhitelist m e.topics = (m, [])) →
      (syncPhase1 r en effs idx).1 = r ∧ (syncPhase1 r en effs idx).2.2 = effs := by
  intro idx
  induction idx with
  | nil => exact fun r en effs _ => ⟨rfl, rfl⟩
  | cons e rest ih =>
    intro r en effs hstable
    by_cases hact : e.target ≠ "" ∧ e.retention = true
    · rcases hstable e (List.mem_cons_self _ _) hact.1 hact.2 with ⟨m, hm, hTW⟩
      simp only [syncPhase1, if_pos hact, hm, hTW]
      rw [mset_self hm, List.append_nil]
      exact ih r _ effs (fun e' he' h1 h2 => hstable e' (List.mem_cons_of_mem _ he') h1 h2)
    · simp only [syncPhase1, if_neg hact]
      exact ih r en effs (fun e' he' h1 h2 => hstable e' (List.mem_cons_of_mem _ he') h1 h2)

theorem syncPhase1_frame :
    ∀ (idx : List IndexEntry) (r : Registry) (en : List String) (effs : List Eff)
      (slug : String), slug ∉ activeSlugs idx →
      mget slug (syncPhase1 r en effs idx).1 = mget slug r := by
  intro idx
  induction idx with
  | nil => exact fun r en effs slug _ => rfl
  | cons e rest ih =>
    intro r en effs slug hslug
    by_cases hact : e.target ≠ "" ∧ e.retention = true
    · rw [activeSlugs_cons_pos rest hact, List.mem_cons] at hslug
      push_neg at hslug
      rcases hmg : mget (slugifyStr e.target) r with _ | m
      · simp only [syncPhase1, if_pos hact, hmg]
        rw [ih _ _ _ _ hslug.2, mget_append]
        rcases hms : mget slug r with _ | v
        · have hne : ¬ slugifyStr e.target = slug := fun hh => hslug.1 hh.symm
          simp [hms, mget, hne]
        · simp [hms]
      · simp only [syncPhase1, if_pos hact, hmg]
        rw [ih _ _ _ _ hslug.2]
        exact mget_mset_ne (Ne.symm hslug.1) _ _
    · rw [activeSlugs_cons_neg rest hact] at hslug
      simp only [syncPhase1, if_neg hact]
      exact ih _ _ _ _ hslug

theorem syncPhase1_channelsNodup :
    ∀ (idx : List IndexEntry) (r : Registry) (en : List String) (effs : List Eff),
      (∀ p ∈ r, (p.2.channels.map Prod.fst).Nodup) →
      ∀ p ∈ (syncPhase1 r en effs idx).1, (p.2.channels.map Prod.fst).Nodup := by
  intro idx
  induction idx with
  | nil => exact fun r en effs h => h
  | cons e rest ih =>
    intro r en effs hr
    by_cases hact : e.target ≠ "" ∧ e.retention = true
    · rcases hmg : mget (slugifyStr e.target) r with _ | m
      · simp only [syncPhase1, if_pos hact, hmg]
        apply ih
        intro p hp
        rcases List.mem_append.mp hp with hp1 | hp2
        · exact hr p hp1
        · have hp3 := List.mem_singleton.mp hp2
          subst hp3
          simp [newManager]
      · simp only [syncPhase1, if_pos hact, hmg]
        apply ih
        intro p hp
        rcases mem_mset hp with hp1 | hp2
        · subst hp1
          have hm := hr _ (mget_mem hmg)
          simpa [setTopicsWhitelist_channels] using hm
        · exact hr p hp2
    · simp only [syncPhase1, if_neg hact]
      exact ih r en effs hr

theorem syncPhase1_enabled_mono :
    ∀ (idx : List IndexEntry) (r : Registry) (en : List String) (effs : List Eff)
      (slug : String), slug ∈ en → slug ∈ (syncPhase1 r en effs idx).2.1 := by
  intro idx
  induction idx with
  | nil => exact fun r en effs slug h => h
  | cons e rest ih =>
    intro r en effs slug hs
    by_cases hact : e.target ≠ "" ∧ e.retention = true
    · have hen : slug ∈ (if en.contains (slugifyStr e.target) then en
          else en ++ [slugifyStr e.target]) := by
        split
        · exact hs
        · exact List.mem_append_left _ hs
      rcases hmg : mget (slugifyStr e.target) r with _ | m
      · simp only [syncPhase1, if_pos hact, hmg]
        exact ih _ _ _ slug hen
      · simp only [syncPhase1, if_pos hact, hmg]
        exact ih _ _ _ slug hen
    · simp only [syncPhase1, if_neg hact]
      exact ih _ _ _ slug hs

theorem syncPhase1_enabled_congr :
    ∀ (idx : List IndexEntry) (r r' : Registry) (en : List String)
      (effs effs' : List Eff),
      (syncPhase1 r en effs idx).2.1 = (syncPhase1 r' en effs' idx).2.1 := by
  intro idx
  induction idx with
  | nil => exact fun _ _ _ _ _ => rfl
  | cons e rest ih =>
    intro r r' en effs effs'
    by_cases hact : e.target ≠ "" ∧ e.retention = true
    · rcases hmg : mget (slugifyStr e.target) r with _ | m <;>
        rcases hmg' : mget (slugifyStr e.target) r' with _ | m' <;>
          simp only [syncPhase1, if_pos hact, hmg, hmg'] <;>
            exact ih _ _ _ _ _
    · simp only [syncPhase1, if_neg hact]
      exact ih _ _ _ _ _

theorem syncPhase1_establishes :
    ∀ (idx : List IndexEntry) (r : Registry) (en : List String) (effs : List Eff),
      (∀ p ∈ r, (p.2.channels.map Prod.fst).Nodup) →
      (activeSlugs idx).Nodup →
      ∀ e ∈ idx, e.target ≠ "" → e.retention = true →
        (∃ m, mget (slugifyStr e.target) (syncPhase1 r en effs idx).1 = some m ∧
            setTopicsWhitelist m e.topics = (m, [])) ∧
        slugifyStr e.target ∈ (syncPhase1 r en effs idx).2.1 := by
  intro idx
  induction idx with
  | nil =>
    intro r en effs _ _ e he
    simp at he
  | cons e0 rest ih =>
    intro r en effs hch hnd e he h1 h2
    by_cases hact : e0.target ≠ "" ∧ e0.retention = true
    · rw [activeSlugs_cons_pos rest hact, List.nodup_cons] at hnd
      have henmem : slugifyStr e0.target ∈
          (if en.contains (slugifyStr e0.target) then en
            else en ++ [slugifyStr e0.target]) := by
        split
        · next hcon => simpa using hcon
        · exact List.mem_append_right _ (List.mem_singleton.mpr rfl)
      rcases List.mem_cons.mp he with rfl | herest
      · rcases hmg : mget (slugifyStr e.target) r with _ | m
        · simp only [syncPhase1, if_pos hact, hmg]
          constructor
          · refine ⟨newManager e.topics, ?_, setTopicsWhitelist_newManager e.topics⟩
            rw [syncPhase1_frame rest _ _ _ _ hnd.1, mget_append, hmg]
            simp [mget]
          · exact syncPhase1_enabled_mono rest _ _ _ _ henmem
        · simp only [syncPhase1, if_pos hact, hmg]
          constructor
          · refine ⟨(setTopicsWhitelist m e.topics).1, ?_, ?_⟩
            · rw [syncPhase1_frame rest _ _ _ _ hnd.1]
              exact mget_mset_self _ _ _
            · exact setTopicsWhitelist_idem m e.topics (hch _ (mget_mem hmg))
          · exact syncPhase1_enabled_mono rest _ _ _ _ henmem
      · rcases hmg : mget (slugifyStr e0.target) r with _ | m
        · simp only [syncPhase1, if_pos hact, hmg]
          refine ih _ _ _ ?_ hnd.2 e herest h1 h2
          intro p hp
          rcases List.mem_append.mp hp with hp1 | hp2
          · exact hch p hp1
          · have hp3 := List.mem_singleton.mp hp2
            subst hp3
            simp [newManager]
        · simp only [syncPhase1, if_pos hact, hmg]
          refine ih _ _ _ ?_ hnd.2 e herest h1 h2
          intro p hp
          rcases mem_mset hp with hp1 | hp2
          · subst hp1
            have hm := hch _ (mget_mem hmg)
            simpa [setTopicsWhitelist_channels] using hm
          · exact hch p hp2
    · rw [activeSlugs_cons_neg rest hact] at hnd
      rcases List.mem_cons.mp he with rfl | herest
      · exact absurd ⟨h1, h2⟩ hact
      · simp only [syncPhase1, if_neg hact]
        exact ih _ _ _ hch hnd e herest h1 h2

theorem syncFromIndex_eq (r : Registry) (index : List IndexEntry) :
    syncFromIndex r index =
      ((syncPhase1 r [] [] index).1.filter
          (fun p => (syncPhase1 r [] [] index).2.1.contains p.1),
        (syncPhase1 r [] [] index).2.2 ++
          ((syncPhase1 r [] [] index).1.filter
              (fun p => ¬ (syncPhase1 r [] [] index).2.1.contains p.1)).map
            (fun p => Eff.stopManager p.1)) := rfl

/-- Claim C6: running `syncFromIndex` twice on the same desired index leaves
the running manager set (with their whitelists) identical to the state after
the first call, and the second call starts no manager, stops no manager, and
emits no upstream effects.  Hypotheses: each pre-existing manager's channel
table has unique ids (a `Map` invariant) and the enabled entries' slugs are
pairwise distinct (the spec requires slug uniqueness within the retained
set). -/
theorem syncFromIndex_idempotent (r : Registry) (index : List IndexEntry)
    (hch : ∀ p ∈ r, (p.2.channels.map Prod.fst).Nodup)
    (hslugs : (activeSlugs index).Nodup) :
    syncFromIndex (syncFromIndex r index).1 index = ((syncFromIndex r index).1, []) := by
  have hr1def : (syncFromIndex r index).1 =
      (syncPhase1 r [] [] index).1.filter
        (fun p => (syncPhase1 r [] [] index).2.1.contains p.1) := rfl
  have hstable : ∀ e ∈ index, e.target ≠ "" → e.retention = true →
      ∃ m, mget (slugifyStr e.target) (syncFromIndex r index).1 = some m ∧
        setTopicsWhitelist m e.topics = (m, []) := by
    intro e he h1 h2
    rcases syncPhase1_establishes index r [] [] hch hslugs e he h1 h2 with
      ⟨⟨m, hm, hTW⟩, hen⟩
    refine ⟨m, ?_, hTW⟩
    rw [hr1def, mget_filter_key, if_pos (by simpa using hen)]
    exact hm
  have hnoop := syncPhase1_noop index (syncFromIndex r index).1 [] [] hstable
  have hencongr := syncPhase1_enabled_congr index (syncFromIndex r index).1 r [] [] []
  have hkey : ∀ p ∈ (syncFromIndex r index).1,
      ((syncPhase1 r [] [] index).2.1.contains p.1) = true := by
    intro p hp
    rw [hr1def] at hp
    exact (List.mem_filter.mp hp).2
  rw [syncFromIndex_eq ((syncFromIndex r index).1) index, hnoop.1, hnoop.2, hencongr]
  rw [List.filter_eq_self.mpr hkey]
  rw [show ((syncFromIndex r index).1.filter
        (fun p => ¬ (syncPhase1 r [] [] index).2.1.contains p.1)) = [] from
      List.filter_eq_nil_iff.mpr (fun p hp => by
        simp only [hkey p hp]
        decide)]
  rfl

theorem syncFromIndex_idempotent_witness :
    syncFromIndex (syncFromIndex [] wIndex).1 wIndex = ((syncFromIndex [] wIndex).1, []) :=
  syncFromIndex_idempotent [] wIndex (fun p hp => absurd hp (by simp)) (by decide)

end Bridge
